import Mathlib

/-!
Verification of the S3 access-log rollup tool (`main.py`) against its
natural-language specification.

The Python source is shallowly embedded: pure helpers become Lean
functions on `String`/`List`; S3 listings become a tree of directory
nodes; generators become functions producing lists (their yield
sequences); exceptions become `Option` results; the random hex suffix
and the current UTC date become explicit parameters.
-/

namespace Rollup

/-- `TARBALL_PREFIX` constant from the source. -/
def tarballNamePart : String := "rollup"

/-! ## POSIX path helpers (model of `pathlib.PurePosixPath`) -/

/-- Split a character list on a separator character (semantics of
`str.split(sep)` for a one-character separator, and of
`String.splitOn`; defined on the character list so that proofs can
evaluate it). -/
def splitOnChar (sep : Char) : List Char → List (List Char)
  | [] => [[]]
  | c :: rest =>
    let r := splitOnChar sep rest
    if c == sep then [] :: r
    else
      match r with
      | [] => [[c]]
      | g :: gs => (c :: g) :: gs

/-- Join character lists with a separator character (semantics of
`sep.join(parts)` / `String.intercalate`). -/
def intercalateChar (sep : Char) : List (List Char) → List Char
  | [] => []
  | [g] => g
  | g :: gs => g ++ sep :: intercalateChar sep gs

/-- First `n` characters of a string (`s[:n]`). -/
def strTake (s : String) (n : Nat) : String :=
  String.mk (s.data.take n)

/-- `PurePosixPath(s).name` as a character list: the last nonempty
`/`-separated component, or `[]` when there is none. -/
def posixNameChars (s : String) : List Char :=
  ((splitOnChar '/' s.data).filter (fun p => p ≠ [])).getLastD []

/-- `PurePosixPath(s).name`. -/
def posixName (s : String) : String :=
  String.mk (posixNameChars s)

/-- Index of the last `'.'` in a character list, if any. -/
def lastDotPos (cs : List Char) : Option Nat :=
  ((List.range cs.length).filter (fun i => cs.getD i ' ' == '.')).getLast?

/-- `PurePosixPath(s).suffix ≠ ''`: CPython returns `name[i:]` for
`i = name.rfind('.')` when `0 < i < len(name) - 1`, else `''`. -/
def hasSuffix (s : String) : Bool :=
  let name := posixNameChars s
  match lastDotPos name with
  | none => false
  | some i => decide (0 < i ∧ i < name.length - 1)

/-- `str(PurePosixPath(s).with_name(newname))`: replace the final
component (keys here are relative paths, as produced by S3 listings). -/
def withName (s newname : String) : String :=
  let parts := (splitOnChar '/' s.data).filter (fun p => p ≠ [])
  String.mk (intercalateChar '/' (parts.dropLast ++ [newname.data]))

/-! ## Calendar dates (model of `datetime.date` and `strptime`) -/

structure Date where
  year : Nat
  month : Nat
  day : Nat
deriving DecidableEq

/-- Lexicographic `≤` on dates, as `datetime.date` comparison. -/
def Date.ble (a b : Date) : Bool :=
  if a.year = b.year then
    if a.month = b.month then decide (a.day ≤ b.day)
    else decide (a.month < b.month)
  else decide (a.year < b.year)

def isLeapYear (y : Nat) : Bool :=
  y % 4 == 0 && (y % 100 != 0 || y % 400 == 0)

def daysInMonth (y m : Nat) : Nat :=
  if m = 2 then (if isLeapYear y then 29 else 28)
  else if m = 4 ∨ m = 6 ∨ m = 9 ∨ m = 11 then 30
  else 31

def digitVal (c : Char) : Nat := c.toNat - '0'.toNat

/-- `datetime.strptime(s, '%Y-%m-%d').date()` on the zero-padded
10-character strings produced by the access-log key pattern: `none`
models the `ValueError` raised on a malformed or out-of-range date
(`datetime` requires `1 ≤ year`, `1 ≤ month ≤ 12`, and a day that
exists in that month). -/
def parseDate (s : String) : Option Date :=
  match s.toList with
  | [y1, y2, y3, y4, s1, m1, m2, s2, d1, d2] =>
    if (y1.isDigit && y2.isDigit && y3.isDigit && y4.isDigit &&
        (s1 == '-') && m1.isDigit && m2.isDigit &&
        (s2 == '-') && d1.isDigit && d2.isDigit) then
      let y := ((digitVal y1 * 10 + digitVal y2) * 10 + digitVal y3) * 10 + digitVal y4
      let m := digitVal m1 * 10 + digitVal m2
      let d := digitVal d1 * 10 + digitVal d2
      if 1 ≤ y ∧ 1 ≤ m ∧ m ≤ 12 ∧ 1 ≤ d ∧ d ≤ daysInMonth y m then
        some ⟨y, m, d⟩
      else none
    else none
  | _ => none

/-! ## ObjectSummary and RollupTask -/

structure ObjectSummary where
  key : String
  size : Nat
deriving DecidableEq

structure RollupTask where
  s3_role : String
  bucket_name : String
  common_prefix : String
  basenames : List String
deriving DecidableEq

/-- `RollupTask.object_keys`: prepend the common prefix to each
basename. On an empty `basenames` list this is just `[]` — the Python
list comprehension raises no error. -/
def RollupTask.object_keys (t : RollupTask) : List String :=
  t.basenames.map (fun bn => t.common_prefix ++ bn)

/-- `RollupTask.date_str`: `none` models the `ValueError` raised when
`basenames` is empty; otherwise the first 10 characters of the first
basename's final path component. -/
def RollupTask.date_str (t : RollupTask) : Option String :=
  match t.basenames with
  | [] => none
  | bn :: _ => some (strTake (posixName bn) 10)

/-- `RollupTask.tarball_key`: `none` models the `ValueError` on empty
`basenames`; the `secrets.token_hex(4)` suffix is an explicit
parameter. -/
def RollupTask.tarball_key (t : RollupTask) (randHex : String) : Option String :=
  match t.basenames with
  | [] => none
  | bn :: _ =>
    let ds := strTake (posixName bn) 10
    let objKey := t.common_prefix ++ bn
    some (withName objKey
      (tarballNamePart ++ "-" ++ ds ++ "-" ++ randHex ++ ".tgz"))

/-- Contiguous chunks of `n` elements (for `n ≥ 1` this is exactly the
slicing loop `basenames[i:i+n]` for `i in range(0, len, n)`). -/
def chunkList (n : Nat) : List α → List (List α)
  | [] => []
  | x :: xs => (x :: List.take (n - 1) xs) :: chunkList n (List.drop (n - 1) xs)
termination_by l => l.length
decreasing_by
  simp only [List.length_cons, List.length_drop]
  omega

/-- `RollupTask.split(chunk_size)` as the list of yielded tasks. -/
def RollupTask.split (t : RollupTask) (chunk_size : Nat) : List RollupTask :=
  (chunkList chunk_size t.basenames).map (fun bs =>
    { t with basenames := bs })

/-! ## `AccessLogRoller._group_objects` -/

/-- Loop body of `_group_objects`: `group`/`group_size` are the bin in
progress, the list argument is the remaining objects. -/
def groupGo (max_size max_items : Nat) (group : List ObjectSummary)
    (group_size : Nat) : List ObjectSummary → List (List ObjectSummary)
  | [] => [group]
  | current :: rest =>
    if group_size + current.size ≤ max_size ∧ group.length + 1 ≤ max_items then
      groupGo max_size max_items (group ++ [current]) (group_size + current.size) rest
    else
      group :: groupGo max_size max_items [current] current.size rest

/-- `_group_objects(objects, max_size, max_items)` on a nonempty input
(`initial = next(objects)`; the Python generator cannot run on an empty
iterator). -/
def groupObjects (max_size max_items : Nat) (initial : ObjectSummary)
    (rest : List ObjectSummary) : List (List ObjectSummary) :=
  groupGo max_size max_items [initial] initial.size rest

/-! ## `AccessLogRoller._is_access_log` and `_date_getter` -/

/-- Prefix match of a character-class pattern, as `re.match` with a
pattern of fixed-width character classes. -/
def matchesAt : List (Char → Bool) → List Char → Bool
  | [], _ => true
  | _ :: _, [] => false
  | p :: ps, c :: cs => p c && matchesAt ps cs

/-- The regex `\d{4}-\d{2}-\d{2}-\d{2}-\d{2}-\d{2}` as a list of
character classes (19 positions). -/
def datetimeShape : List (Char → Bool) :=
  let d := Char.isDigit
  let dash := fun c => c == '-'
  [d, d, d, d, dash, d, d, dash, d, d, dash, d, d, dash, d, d, dash, d, d]

/-- `_is_access_log`: the basename starts with the timestamp pattern
and the path has no filename extension. -/
def isAccessLog (key : String) : Bool :=
  matchesAt datetimeShape (posixName key).toList && !(hasSuffix key)

/-- `_date_getter`: take the first 10 characters of the basename,
parse them as a date (`none` models the `ValueError` raised by
`strptime`), and map dates that are today or later to the empty-string
marker. `today` stands for `datetime.utcnow().date()`. -/
def dateGetter (today : Date) (o : ObjectSummary) : Option String :=
  let date_str := strTake (posixName o.key) 10
  match parseDate date_str with
  | none => none
  | some d => if Date.ble today d then some "" else some date_str

/-! ## `S3Path.depth` and `S3Path.find_folders`

The flat key space seen through one delimiter-listing per node is
modelled as a tree of directory nodes: each node carries its key and
the child folders its listing call would return (in listing order). -/

/-- `S3Path.depth`: number of separators in the key after stripping
trailing separators (`key.rstrip('/').count('/')`). -/
def keyDepth (key : String) : Nat :=
  (key.toList.reverse.dropWhile (fun c => c == '/')).count '/'

inductive S3Dir where
  | node (key : String) (children : List S3Dir)

def S3Dir.key : S3Dir → String
  | .node k _ => k

def S3Dir.children : S3Dir → List S3Dir
  | .node _ cs => cs

def S3Dir.depth (d : S3Dir) : Nat := keyDepth d.key

mutual

/-- `S3Path.find_folders(max_depth)` as the list of yielded folders:
iterate over this node's child folders; on the first child whose depth
reaches `max_depth` the loop `break`s (that child is not yielded and
later siblings are not visited); otherwise yield the child and recurse
into it depth-first. -/
def S3Dir.find_folders (d : S3Dir) (max_depth : Nat) : List S3Dir :=
  match d with
  | .node _ children => findFoldersGo children max_depth

def findFoldersGo : List S3Dir → Nat → List S3Dir
  | [], _ => []
  | f :: rest, max_depth =>
    if f.depth ≥ max_depth then []
    else f :: (S3Dir.find_folders f max_depth ++ findFoldersGo rest max_depth)

end

/-- All children of one delimiter listing have the same depth (their
keys all extend the node's key by exactly one nonempty segment plus
the separator). -/
def uniformDepth : List S3Dir → Bool
  | [] => true
  | c :: cs => cs.all (fun x => S3Dir.depth x == S3Dir.depth c)

/-- A child folder's depth never drops below its parent's. -/
def depthsOk (parentDepth : Nat) (cs : List S3Dir) : Bool :=
  cs.all (fun c => parentDepth ≤ S3Dir.depth c)

mutual

/-- Well-formedness of a directory tree as produced by real
delimiter listings: every node's children share one depth, no less
than the node's own. -/
def S3Dir.wf : S3Dir → Bool
  | .node k children =>
    depthsOk (keyDepth k) children && uniformDepth children && wfAll children

def wfAll : List S3Dir → Bool
  | [] => true
  | c :: cs => S3Dir.wf c && wfAll cs

end

/-- `Descendant f d`: folder `f` is reachable from `d` by one or more
child steps. -/
inductive Descendant : S3Dir → S3Dir → Prop where
  | child {f d : S3Dir} : f ∈ S3Dir.children d → Descendant f d
  | step {f c d : S3Dir} : c ∈ S3Dir.children d → Descendant f c → Descendant f d

/-! ## `AccessLogRoller.make_tasks` round-robin scheduler

The while-loop over `active_task_makers` (a deque of per-prefix task
generators) and the pending `task_makers` iterator: each generator is
its remaining list of tasks. -/

/-- One run of the scheduling loop: `active` is the deque, `pending`
the prefixes not yet admitted. Head cursor nonempty: yield its head
and rotate the cursor to the back. Head cursor exhausted: drop it and
admit the next pending cursor, if any. -/
def roundRobin : List (List α) → List (List α) → List α
  | [], _ => []
  | [] :: active, pending =>
    match pending with
    | [] => roundRobin active []
    | p :: ps => roundRobin (active ++ [p]) ps
  | (t :: ts) :: active, pending => t :: roundRobin (active ++ [ts]) pending
termination_by active pending =>
  ((active.map List.length).sum + (pending.map List.length).sum)
    + (active.length + pending.length)
decreasing_by
  · simp only [List.map_cons, List.sum_cons, List.length_cons]
    omega
  · simp only [List.map_append, List.map_cons, List.sum_append, List.sum_cons,
      List.map_nil, List.sum_nil, List.length_append, List.length_cons,
      List.length_nil]
    omega
  · simp only [List.map_append, List.map_cons, List.sum_append, List.sum_cons,
      List.map_nil, List.sum_nil, List.length_append, List.length_cons,
      List.length_nil]
    omega

/-- The scheduling part of `make_tasks`: the active window starts with
the first 20 per-prefix task streams (`itertools.islice(task_makers,
20)`), the rest are pending. -/
def makeTasksSchedule (streams : List (List α)) : List α :=
  roundRobin (streams.take 20) (streams.drop 20)

/-! ## `AccessLogRoller._make_tasks` (task builder for one prefix) -/

/-- `itertools.groupby` body: accumulate while the key is unchanged. -/
def groupRunsGo [DecidableEq κ] (keyf : α → κ) (k : κ) (acc : List α) :
    List α → List (κ × List α)
  | [] => [(k, acc.reverse)]
  | x :: xs =>
    if keyf x = k then groupRunsGo keyf k (x :: acc) xs
    else (k, acc.reverse) :: groupRunsGo keyf (keyf x) [x] xs

/-- `itertools.groupby(xs, key=keyf)`: maximal runs of consecutive
elements sharing a key, with that key. -/
def groupRuns [DecidableEq κ] (keyf : α → κ) : List α → List (κ × List α)
  | [] => []
  | x :: xs => groupRunsGo keyf (keyf x) [x] xs

/-- The loop test `if not date_str: break`, lifted to the `Option`
model of `_date_getter`: a `some ""` key (date is today or later)
stops enumeration, and a `none` key (a `ValueError` from `strptime`)
aborts the generator, likewise producing no further task. -/
def goodKey : Option String → Bool
  | some s => s ≠ ""
  | none => false

/-- Bin-packing of one (never empty) `groupby` group. -/
def binsOfGroup (max_size max_items : Nat) :
    List ObjectSummary → List (List ObjectSummary)
  | [] => []
  | o :: os => groupObjects max_size max_items o os

/-- `prefix.key.rsplit('/', 1)[0] + '/'`: remove everything after the
last separator and re-append the separator. -/
def parentPrefix (key : String) : String :=
  match (splitOnChar '/' key.data).dropLast with
  | [] => key ++ "/"
  | ps => String.mk (intercalateChar '/' ps) ++ "/"

/-- `_make_tasks(s3_role, prefix)` as the list of yielded tasks:
filter the listing to qualifying log objects, group consecutive
objects by derived date, stop at the first group whose key is the
empty marker, and bin-pack each remaining group into tasks. -/
def makeTasksForPrefix (today : Date) (s3_role bucket prefixKey : String)
    (objects : List ObjectSummary) : List RollupTask :=
  let max_size := 1024 * 1024 * 1024 * 5
  let max_items := 6000
  let qualified := objects.filter (fun o => isAccessLog o.key)
  let groups := (groupRuns (dateGetter today) qualified).takeWhile
    (fun g => goodKey g.1)
  groups.flatMap (fun g =>
    (binsOfGroup max_size max_items g.2).map (fun bin =>
      { s3_role := s3_role, bucket_name := bucket,
        common_prefix := parentPrefix prefixKey,
        basenames := bin.map (fun o => posixName o.key) }))

/-! ## Chunking lemmas (needed for termination of the recursive
splitting operations below) -/

theorem length_le_of_mem_chunkList {α : Type _} {n : Nat} (hn : 1 ≤ n) :
    ∀ (xs : List α) (c : List α), c ∈ chunkList n xs → c.length ≤ n
  | [], c, hc => by simp [chunkList] at hc
  | x :: xs, c, hc => by
    simp only [chunkList, List.mem_cons] at hc
    rcases hc with rfl | hc
    · have := List.length_take_le (n - 1) xs
      simp only [List.length_cons]
      omega
    · exact length_le_of_mem_chunkList hn (List.drop (n - 1) xs) c hc
termination_by xs => xs.length
decreasing_by
  simp only [List.length_cons, List.length_drop]
  omega

/-! ## `AccessLogRoller.queue_tasks` and `_delete_objects_in_task` -/

/-- The messages sent for one task by `queue_tasks`: a task with more
than 6000 basenames is recursively split via `split(6000)` before
sending; otherwise the task itself is serialized into one message. -/
def queueTaskMessages (t : RollupTask) : List RollupTask :=
  if _h : 6000 < t.basenames.length then
    (RollupTask.split t 6000).attach.flatMap (fun c => queueTaskMessages c.1)
  else [t]
termination_by t.basenames.length
decreasing_by
  obtain ⟨bs, hbs, hc⟩ := List.mem_map.mp c.2
  have hle := length_le_of_mem_chunkList (by omega) t.basenames bs hbs
  rw [← hc]
  show bs.length < t.basenames.length
  omega

/-- `queue_tasks(tasks)`: the sequence of messages sent. -/
def queueTasksMessages (tasks : List RollupTask) : List RollupTask :=
  tasks.flatMap queueTaskMessages

/-- The key batches passed to `delete_objects` by
`_delete_objects_in_task`: a task with more than 1000 keys is
recursively split via `split(1000)`; otherwise one call is made with
all of the task's object keys. -/
def deleteBatches (t : RollupTask) : List (List String) :=
  if _h : 1000 < t.basenames.length then
    (RollupTask.split t 1000).attach.flatMap (fun c => deleteBatches c.1)
  else [RollupTask.object_keys t]
termination_by t.basenames.length
decreasing_by
  obtain ⟨bs, hbs, hc⟩ := List.mem_map.mp c.2
  have hle := length_le_of_mem_chunkList (by omega) t.basenames bs hbs
  rw [← hc]
  show bs.length < t.basenames.length
  omega

/-! ## `AccessLogRoller.get_tasks` (dequeue)

The interaction between the `get_tasks` generator and its caller is
modelled as a trace of actions. `ok i` tells whether the caller's
processing of the i-th received message finishes normally; on an
exception the generator is closed at the `yield` and nothing after it
runs. -/

inductive QueueAction where
  | yielded (t : RollupTask)
  | deleted (i : Nat)
deriving DecidableEq

/-- Loop body of `get_tasks`: for each message, yield the deserialized
task; when the caller returns control normally, delete the message and
continue, otherwise the exception propagates and the generator ends. -/
def getTasksGo (ok : Nat → Bool) : Nat → List RollupTask → List QueueAction
  | _, [] => []
  | i, t :: rest =>
    QueueAction.yielded t ::
      (if ok i then QueueAction.deleted i :: getTasksGo ok (i + 1) rest else [])

/-- The trace of `get_tasks` on a batch of received messages, the i-th
message deserializing to the i-th task. -/
def getTasksTrace (msgs : List RollupTask) (ok : Nat → Bool) : List QueueAction :=
  getTasksGo ok 0 msgs

/-! ## `AccessLogRoller.do_task` archive step -/

/-- The local file names of a task's downloads: one file per object
key, named after the key's basename, all in one temporary directory
(in submission order). -/
def localFileNames (t : RollupTask) : List String :=
  (RollupTask.object_keys t).map posixName

def strLe (a b : String) : Bool := decide (a ≤ b)

/-- The member names of the produced tarball: the downloaded local
files sorted by name (`for local_path in sorted(local_paths)` with
`arcname=local_path.name`). The argument is the download results in
whatever order the concurrent downloads completed. -/
def archiveMembers (downloaded : List String) : List String :=
  downloaded.mergeSort strLe

/-! # Theorems -/

/-! ## Shared chunking lemmas -/

theorem flatten_chunkList {α : Type _} (n : Nat) :
    ∀ (xs : List α), (chunkList n xs).flatten = xs
  | [] => by simp [chunkList]
  | x :: xs => by
    simp only [chunkList, List.flatten_cons]
    rw [flatten_chunkList n (List.drop (n - 1) xs)]
    simp [List.take_append_drop]
termination_by xs => xs.length
decreasing_by
  simp only [List.length_cons, List.length_drop]
  omega

theorem length_chunkList {α : Type _} {n : Nat} (hn : 1 ≤ n) :
    ∀ (xs : List α), (chunkList n xs).length = (xs.length + n - 1) / n
  | [] => by
    simp only [chunkList, List.length_nil, Nat.zero_add]
    rw [Nat.div_eq_of_lt (by omega)]
  | x :: xs => by
    simp only [chunkList, List.length_cons]
    rw [length_chunkList hn (List.drop (n - 1) xs)]
    simp only [List.length_drop]
    rcases le_or_lt (n - 1) xs.length with hle | hlt
    · have h1 : xs.length - (n - 1) + n - 1 = xs.length := by omega
      have h2 : xs.length + 1 + n - 1 = xs.length + n := by omega
      rw [h1, h2, Nat.add_div_right _ (by omega)]
    · have h1 : xs.length - (n - 1) + n - 1 = n - 1 := by omega
      have h2 : xs.length + 1 + n - 1 = xs.length + n := by omega
      rw [h1, h2, Nat.add_div_right _ (by omega),
        Nat.div_eq_of_lt (by omega), Nat.div_eq_of_lt (by omega)]
termination_by xs => xs.length
decreasing_by
  simp only [List.length_cons, List.length_drop]
  omega

/-- One field-level description of membership in `split`. -/
theorem mem_split {t c : RollupTask} {n : Nat}
    (hc : c ∈ RollupTask.split t n) :
    c.s3_role = t.s3_role ∧ c.bucket_name = t.bucket_name ∧
    RollupTask.common_prefix c = RollupTask.common_prefix t ∧
    c.basenames ∈ chunkList n t.basenames := by
  obtain ⟨bs, hbs, rfl⟩ := List.mem_map.mp hc
  exact ⟨rfl, rfl, rfl, hbs⟩

theorem split_map_basenames (t : RollupTask) (n : Nat) :
    (RollupTask.split t n).map RollupTask.basenames = chunkList n t.basenames := by
  rw [RollupTask.split, List.map_map]
  exact List.map_id _

/-- Concrete task of 8 basenames from the repository's test suite. -/
def sampleTask8 : RollupTask :=
  { s3_role := "arn:aws:iam::123456789012:role/s3-rollup-bucket-access"
    bucket_name := "bucket1"
    common_prefix := "example.com/"
    basenames := [
      "2022-06-30-16-13-48-F7334FE15D46A819",
      "2022-06-30-17-13-48-F7334FE15D46A819",
      "2022-06-30-18-13-48-F7334FE15D46A819",
      "2022-06-30-19-13-48-F7334FE15D46A819",
      "2022-06-30-20-13-48-F7334FE15D46A819",
      "2022-06-30-21-13-48-F7334FE15D46A819",
      "2022-06-30-22-13-48-F7334FE15D46A819",
      "2022-06-30-23-13-48-F7334FE15D46A819"] }

/-- C5: `task.split(n)` yields exactly `ceil(len/n)` chunks, each a new
task with the same role, bucket and common prefix, each chunk holding
at most `n` basenames, and the chunks' basenames concatenated in order
equal the original basenames; on a task of 8 basenames, `split(2)`
gives 4 chunks of 2, `split(4)` gives 2 chunks of 4 and `split(99)`
gives 1 chunk of 8. -/
theorem split_spec (t : RollupTask) (n : Nat) (hn : 0 < n) :
    (RollupTask.split t n).length = (t.basenames.length + n - 1) / n ∧
    (∀ c ∈ RollupTask.split t n,
      c.s3_role = t.s3_role ∧ c.bucket_name = t.bucket_name ∧
      RollupTask.common_prefix c = RollupTask.common_prefix t ∧
      c.basenames.length ≤ n) ∧
    ((RollupTask.split t n).map RollupTask.basenames).flatten = t.basenames ∧
    (RollupTask.split sampleTask8 2).map
      (fun c => c.basenames.length) = [2, 2, 2, 2] ∧
    (RollupTask.split sampleTask8 4).map
      (fun c => c.basenames.length) = [4, 4] ∧
    (RollupTask.split sampleTask8 99).map
      (fun c => c.basenames.length) = [8] := by
  refine ⟨?_, ?_, ?_, by simp [RollupTask.split, chunkList, sampleTask8],
    by simp [RollupTask.split, chunkList, sampleTask8],
    by simp [RollupTask.split, chunkList, sampleTask8]⟩
  · rw [RollupTask.split, List.length_map]
    exact length_chunkList hn t.basenames
  · intro c hc
    obtain ⟨h1, h2, h3, h4⟩ := mem_split hc
    exact ⟨h1, h2, h3, length_le_of_mem_chunkList hn t.basenames c.basenames h4⟩
  · rw [split_map_basenames]
    exact flatten_chunkList n t.basenames

/-- Witness for C5 at `t = sampleTask8`, `n = 2`. -/
theorem split_spec_witness :
    0 < 2 ∧
    ((RollupTask.split sampleTask8 2).length =
        (sampleTask8.basenames.length + 2 - 1) / 2 ∧
      (∀ c ∈ RollupTask.split sampleTask8 2,
        c.s3_role = sampleTask8.s3_role ∧
        c.bucket_name = sampleTask8.bucket_name ∧
        RollupTask.common_prefix c = RollupTask.common_prefix sampleTask8 ∧
        c.basenames.length ≤ 2) ∧
      ((RollupTask.split sampleTask8 2).map RollupTask.basenames).flatten =
        sampleTask8.basenames ∧
      (RollupTask.split sampleTask8 2).map
        (fun c => c.basenames.length) = [2, 2, 2, 2] ∧
      (RollupTask.split sampleTask8 4).map
        (fun c => c.basenames.length) = [4, 4] ∧
      (RollupTask.split sampleTask8 99).map
        (fun c => c.basenames.length) = [8]) :=
  ⟨by decide, split_spec sampleTask8 2 (by decide)⟩

/-! ## C2: bin packing (`_group_objects`) -/

theorem groupGo_spec (max_size max_items : Nat) (hi : 1 ≤ max_items) :
    ∀ (rest group : List ObjectSummary) (gs : Nat),
      gs = (group.map ObjectSummary.size).sum →
      group ≠ [] →
      ((group.map ObjectSummary.size).sum ≤ max_size ∨ group.length = 1) →
      group.length ≤ max_items →
      (∀ g ∈ groupGo max_size max_items group gs rest,
        ((g.map ObjectSummary.size).sum ≤ max_size ∨ g.length = 1) ∧
        g.length ≤ max_items ∧ g ≠ []) ∧
      (groupGo max_size max_items group gs rest).flatten = group ++ rest := by
  intro rest
  induction rest with
  | nil =>
    intro group gs hgs hne hsz hlen
    constructor
    · intro g hg
      simp only [groupGo, List.mem_singleton] at hg
      subst hg
      exact ⟨hsz, hlen, hne⟩
    · simp [groupGo]
  | cons current rest ih =>
    intro group gs hgs hne hsz hlen
    subst hgs
    by_cases hcond : (group.map ObjectSummary.size).sum + current.size ≤ max_size
        ∧ group.length + 1 ≤ max_items
    · have hsum : (group.map ObjectSummary.size).sum + current.size =
          (((group ++ [current]).map ObjectSummary.size).sum) := by
        simp
      have ihx := ih (group ++ [current])
        ((group.map ObjectSummary.size).sum + current.size) hsum
        (by simp) (by rw [← hsum]; exact Or.inl hcond.1)
        (by simpa using hcond.2)
      constructor
      · intro g hg
        rw [groupGo, if_pos hcond] at hg
        exact ihx.1 g hg
      · rw [groupGo, if_pos hcond, ihx.2]
        simp
    · have hsum : current.size = (([current].map ObjectSummary.size).sum) := by
        simp
      have ihx := ih [current] current.size hsum (by simp)
        (Or.inr (by simp)) (by simpa using hi)
      constructor
      · intro g hg
        rw [groupGo, if_neg hcond] at hg
        rcases List.mem_cons.mp hg with rfl | hg
        · exact ⟨hsz, hlen, hne⟩
        · exact ihx.1 g hg
      · rw [groupGo, if_neg hcond]
        simp only [List.flatten_cons, ihx.2]
        simp

/-- C2: every bin produced by `_group_objects` has total size at most
`max_size` or exactly one element, and at most `max_items` elements;
the bins concatenated in order reproduce the input; sizes
`[5, 8, 3, 3, 4]` with `max_size = 10`, `max_items = 999` give bins
`[[5], [8], [3, 3, 4]]`. -/
theorem group_objects_spec (max_size max_items : Nat)
    (initial : ObjectSummary) (rest : List ObjectSummary)
    (_hs : 0 < max_size) (hi : 0 < max_items) :
    (∀ g ∈ groupObjects max_size max_items initial rest,
      ((g.map ObjectSummary.size).sum ≤ max_size ∨ g.length = 1) ∧
      g.length ≤ max_items) ∧
    (groupObjects max_size max_items initial rest).flatten = initial :: rest ∧
    (groupObjects 10 999 ⟨"a", 5⟩ [⟨"b", 8⟩, ⟨"c", 3⟩, ⟨"d", 3⟩, ⟨"e", 4⟩]).map
      (fun g => g.map ObjectSummary.size) = [[5], [8], [3, 3, 4]] := by
  have h := groupGo_spec max_size max_items hi rest [initial] initial.size
    (by simp) (by simp) (Or.inr (by simp)) (by simpa using hi)
  refine ⟨fun g hg => ⟨(h.1 g hg).1, (h.1 g hg).2.1⟩, by simpa using h.2, by decide⟩

/-- Witness for C2 at the Scenario B input. -/
theorem group_objects_spec_witness :
    0 < 10 ∧ 0 < 999 ∧
    ((∀ g ∈ groupObjects 10 999 ⟨"a", 5⟩ [⟨"b", 8⟩, ⟨"c", 3⟩, ⟨"d", 3⟩, ⟨"e", 4⟩],
        ((g.map ObjectSummary.size).sum ≤ 10 ∨ g.length = 1) ∧
        g.length ≤ 999) ∧
      (groupObjects 10 999 ⟨"a", 5⟩
          [⟨"b", 8⟩, ⟨"c", 3⟩, ⟨"d", 3⟩, ⟨"e", 4⟩]).flatten =
        ⟨"a", 5⟩ :: [⟨"b", 8⟩, ⟨"c", 3⟩, ⟨"d", 3⟩, ⟨"e", 4⟩] ∧
      (groupObjects 10 999 ⟨"a", 5⟩ [⟨"b", 8⟩, ⟨"c", 3⟩, ⟨"d", 3⟩, ⟨"e", 4⟩]).map
        (fun g => g.map ObjectSummary.size) = [[5], [8], [3, 3, 4]]) :=
  ⟨by decide, by decide,
    group_objects_spec 10 999 ⟨"a", 5⟩ [⟨"b", 8⟩, ⟨"c", 3⟩, ⟨"d", 3⟩, ⟨"e", 4⟩]
      (by decide) (by decide)⟩

/-! ## C7: pre-emptive splitting of oversize messages and delete
batches -/

theorem attach_flatMap_eq {α β : Type _} (l : List α) (F : α → List β) :
    l.attach.flatMap (fun c => F c.1) = l.flatMap F := by
  conv_rhs => rw [← List.attach_map_subtype_val l]
  rw [List.flatMap_def, List.flatMap_def, List.map_map]
  rfl

theorem flatMap_flatten_congr {α β : Type _} (cs : List α)
    (F : α → List (List β)) (G : α → List β)
    (h : ∀ c ∈ cs, (F c).flatten = G c) :
    (cs.flatMap F).flatten = (cs.map G).flatten := by
  induction cs with
  | nil => simp
  | cons c cs ih =>
    simp only [List.flatMap_cons, List.flatten_append, List.map_cons,
      List.flatten_cons]
    rw [h c (by simp), ih (fun c hc => h c (List.mem_cons_of_mem _ hc))]

theorem split_map_object_keys (t : RollupTask) (n : Nat) :
    (RollupTask.split t n).map RollupTask.object_keys =
      (chunkList n t.basenames).map
        (List.map (fun bn => t.common_prefix ++ bn)) := by
  rw [RollupTask.split, List.map_map]
  rfl

theorem queueTaskMessages_spec (t : RollupTask) :
    (∀ m ∈ queueTaskMessages t, m.basenames.length ≤ 6000 ∧
      m.s3_role = t.s3_role ∧ m.bucket_name = t.bucket_name ∧
      RollupTask.common_prefix m = RollupTask.common_prefix t) ∧
    ((queueTaskMessages t).map RollupTask.basenames).flatten = t.basenames := by
  by_cases h : 6000 < t.basenames.length
  · rw [queueTaskMessages, dif_pos h, attach_flatMap_eq]
    have hrec : ∀ c ∈ RollupTask.split t 6000,
        (∀ m ∈ queueTaskMessages c, m.basenames.length ≤ 6000 ∧
          m.s3_role = c.s3_role ∧ m.bucket_name = c.bucket_name ∧
          RollupTask.common_prefix m = RollupTask.common_prefix c) ∧
        ((queueTaskMessages c).map RollupTask.basenames).flatten =
          c.basenames := fun c hc => queueTaskMessages_spec c
    constructor
    · intro m hm
      obtain ⟨c, hc, hmc⟩ := List.mem_flatMap.mp hm
      obtain ⟨hf1, hf2, hf3, _⟩ := mem_split hc
      obtain ⟨hl, hm1, hm2, hm3⟩ := (hrec c hc).1 m hmc
      exact ⟨hl, hm1.trans hf1, hm2.trans hf2, hm3.trans hf3⟩
    · rw [List.map_flatMap,
        flatMap_flatten_congr _ _ RollupTask.basenames
          (fun c hc => (hrec c hc).2),
        split_map_basenames]
      exact flatten_chunkList 6000 t.basenames
  · rw [queueTaskMessages, dif_neg h]
    constructor
    · intro m hm
      simp only [List.mem_singleton] at hm
      subst hm
      exact ⟨by omega, rfl, rfl, rfl⟩
    · simp
termination_by t.basenames.length
decreasing_by
  obtain ⟨_, _, _, h4⟩ := mem_split hc
  have := length_le_of_mem_chunkList (by omega) t.basenames c.basenames h4
  omega

theorem deleteBatches_spec (t : RollupTask) :
    (∀ b ∈ deleteBatches t, b.length ≤ 1000) ∧
    (deleteBatches t).flatten = RollupTask.object_keys t := by
  by_cases h : 1000 < t.basenames.length
  · rw [deleteBatches, dif_pos h, attach_flatMap_eq]
    have hrec : ∀ c ∈ RollupTask.split t 1000,
        (∀ b ∈ deleteBatches c, b.length ≤ 1000) ∧
        (deleteBatches c).flatten = RollupTask.object_keys c :=
      fun c hc => deleteBatches_spec c
    constructor
    · intro b hb
      obtain ⟨c, hc, hbc⟩ := List.mem_flatMap.mp hb
      exact (hrec c hc).1 b hbc
    · rw [flatMap_flatten_congr _ _ RollupTask.object_keys
          (fun c hc => (hrec c hc).2),
        split_map_object_keys, ← List.map_flatten, flatten_chunkList]
      rfl
  · rw [deleteBatches, dif_neg h]
    constructor
    · intro b hb
      simp only [List.mem_singleton] at hb
      subst hb
      rw [RollupTask.object_keys, List.length_map]
      omega
    · simp
termination_by t.basenames.length
decreasing_by
  obtain ⟨_, _, _, h4⟩ := mem_split hc
  have := length_le_of_mem_chunkList (by omega) t.basenames c.basenames h4
  omega

/-- C7: every message actually sent by `queue_tasks` carries at most
6000 basenames and every `delete_objects` call issued by
`_delete_objects_in_task` carries at most 1000 keys; both oversize
cases are handled by recursive pre-splitting (the embedded operations
are total, no error path exists) and the split parts concatenated in
order cover exactly the original basenames resp. object keys. -/
theorem oversize_split_spec (t u : RollupTask) :
    (∀ m ∈ queueTaskMessages t, m.basenames.length ≤ 6000) ∧
    ((queueTaskMessages t).map RollupTask.basenames).flatten = t.basenames ∧
    (∀ b ∈ deleteBatches u, b.length ≤ 1000) ∧
    (deleteBatches u).flatten = RollupTask.object_keys u :=
  ⟨fun m hm => ((queueTaskMessages_spec t).1 m hm).1,
    (queueTaskMessages_spec t).2,
    (deleteBatches_spec u).1, (deleteBatches_spec u).2⟩

/-! ## C8: derived-key access on an empty-basenames task -/

/-- C8 counterexample: on a task with empty `basenames`,
`object_keys` does not fail — the list comprehension over the empty
list simply yields `[]` — refuting the claim that accessing any of
the three derived-key properties fails. -/
theorem empty_task_object_keys_counterexample :
    RollupTask.object_keys
      { s3_role := "role", bucket_name := "bucket1",
        common_prefix := "example.com/", basenames := [] } = [] := rfl

/-- C8 amended: on a task with empty `basenames`, `date_str` and
`tarball_key` fail (`none` models their `ValueError`), while
`object_keys` succeeds and returns the empty list. -/
theorem empty_task_derived_keys (t : RollupTask) (h : t.basenames = []) :
    RollupTask.date_str t = none ∧
    (∀ r, RollupTask.tarball_key t r = none) ∧
    RollupTask.object_keys t = [] := by
  refine ⟨?_, ?_, ?_⟩ <;>
    simp [RollupTask.date_str, RollupTask.tarball_key,
      RollupTask.object_keys, h]

/-- Witness for C8's amended claim at a concrete empty task. -/
theorem empty_task_derived_keys_witness :
    (RollupTask.mk "role" "bucket1" "example.com/" []).basenames = [] ∧
    (RollupTask.date_str (RollupTask.mk "role" "bucket1" "example.com/" []) =
        none ∧
      (∀ r, RollupTask.tarball_key
        (RollupTask.mk "role" "bucket1" "example.com/" []) r = none) ∧
      RollupTask.object_keys
        (RollupTask.mk "role" "bucket1" "example.com/" []) = []) :=
  ⟨rfl, empty_task_derived_keys _ rfl⟩

/-! ## C6: messages acknowledged only after successful processing -/

theorem getTasksGo_deleted_ok (ok : Nat → Bool) :
    ∀ (msgs : List RollupTask) (j i : Nat),
      QueueAction.deleted i ∈ getTasksGo ok j msgs → ok i = true := by
  intro msgs
  induction msgs with
  | nil => intro j i h; simp [getTasksGo] at h
  | cons t rest ih =>
    intro j i h
    simp only [getTasksGo, List.mem_cons] at h
    rcases h with h | h
    · cases h
    · by_cases hok : ok j
      · rw [if_pos hok] at h
        rcases List.mem_cons.mp h with h | h
        · cases h; exact hok
        · exact ih (j + 1) i h
      · rw [if_neg hok] at h
        cases h

theorem getTasksGo_deleted_after_yield (ok : Nat → Bool) :
    ∀ (msgs : List RollupTask) (j i : Nat) (pre post : List QueueAction),
      getTasksGo ok j msgs = pre ++ QueueAction.deleted i :: post →
      ok i = true ∧ j ≤ i ∧
      ∃ t, msgs[i - j]? = some t ∧ QueueAction.yielded t ∈ pre := by
  intro msgs
  induction msgs with
  | nil =>
    intro j i pre post h
    rw [getTasksGo] at h
    exact absurd h.symm (List.append_ne_nil_of_right_ne_nil pre (by simp))
  | cons t rest ih =>
    intro j i pre post h
    rw [getTasksGo] at h
    rcases pre with _ | ⟨a, pre⟩
    · rw [List.nil_append] at h
      injection h with h1 h2
      exact QueueAction.noConfusion h1
    · rw [List.cons_append] at h
      injection h with h1 h2
      subst h1
      by_cases hok : ok j
      · rw [if_pos hok] at h2
        rcases pre with _ | ⟨b, pre⟩
        · rw [List.nil_append] at h2
          injection h2 with h3 h4
          injection h3 with h5
          subst h5
          exact ⟨hok, Nat.le_refl j, t, by simp, by simp⟩
        · rw [List.cons_append] at h2
          injection h2 with h3 h4
          subst h3
          obtain ⟨hoki, hji, u, hu, hyu⟩ := ih (j + 1) i pre post h4
          refine ⟨hoki, by omega, u, ?_,
            List.mem_cons_of_mem _ (List.mem_cons_of_mem _ hyu)⟩
          have he : i - j = (i - (j + 1)) + 1 := by omega
          rw [he, List.getElem?_cons_succ]
          exact hu
      · rw [if_neg hok] at h2
        exact absurd h2 (by simp)

/-- C6: a `deleted` acknowledgment for message `i` appears in the
trace of `get_tasks` only if the caller's processing of that message
finished successfully (`ok i`), and only after the corresponding task
was yielded; when processing a yielded task raises, that message is
never deleted by this call. -/
theorem dequeue_ack_spec (msgs : List RollupTask) (ok : Nat → Bool) (i : Nat) :
    (ok i = false → QueueAction.deleted i ∉ getTasksTrace msgs ok) ∧
    (∀ pre post,
      getTasksTrace msgs ok = pre ++ QueueAction.deleted i :: post →
      ok i = true ∧ ∃ t, msgs[i]? = some t ∧ QueueAction.yielded t ∈ pre) := by
  constructor
  · intro hok hmem
    have h := getTasksGo_deleted_ok ok msgs 0 i hmem
    rw [hok] at h
    cases h
  · intro pre post h
    obtain ⟨h1, _, t, ht, hy⟩ := getTasksGo_deleted_after_yield ok msgs 0 i pre post h
    rw [Nat.sub_zero] at ht
    exact ⟨h1, t, ht, hy⟩

/-- Witness for C6: two messages, the caller failing on the second;
the second message's delete never appears in the trace. -/
theorem dequeue_ack_spec_witness :
    ((fun n => n == 0) 1 : Bool) = false ∧
    QueueAction.deleted 1 ∉
      getTasksTrace [RollupTask.mk "r" "b1" "p/" ["2022-06-30-00-00-00-A"],
        RollupTask.mk "r" "b1" "p/" ["2022-07-01-00-00-00-B"]]
        (fun n => n == 0) :=
  ⟨by decide,
    (dequeue_ack_spec
      [RollupTask.mk "r" "b1" "p/" ["2022-06-30-00-00-00-A"],
        RollupTask.mk "r" "b1" "p/" ["2022-07-01-00-00-00-B"]]
      (fun n => n == 0) 1).1 (by decide)⟩

/-! ## C9: deterministic archive member order -/

theorem strLe_trans : ∀ (a b c : String),
    strLe a b = true → strLe b c = true → strLe a c = true := by
  intro a b c hab hbc
  simp only [strLe, decide_eq_true_eq] at hab hbc ⊢
  exact le_trans hab hbc

theorem strLe_total : ∀ (a b : String), (strLe a b || strLe b a) = true := by
  intro a b
  simp only [strLe, Bool.or_eq_true, decide_eq_true_eq]
  exact le_total a b

theorem archiveMembers_sorted (l : List String) :
    List.Sorted (fun a b : String => a ≤ b) (archiveMembers l) := by
  have h := List.sorted_mergeSort strLe_trans strLe_total l
  exact h.imp (fun hab => by simpa [strLe] using hab)

/-- C9: for a fixed task, the archive's member-name sequence equals
the sorted order of the task's local file names, whatever order the
concurrent downloads completed in (any permutation of the local file
list produces the identical archive member sequence). -/
theorem archive_member_order (t : RollupTask) (downloaded : List String)
    (h : downloaded.Perm (localFileNames t)) :
    archiveMembers downloaded = archiveMembers (localFileNames t) ∧
    List.Sorted (fun a b : String => a ≤ b) (archiveMembers downloaded) ∧
    (archiveMembers downloaded).Perm (localFileNames t) := by
  have hs1 := archiveMembers_sorted downloaded
  have hs2 := archiveMembers_sorted (localFileNames t)
  have hp1 : (archiveMembers downloaded).Perm (localFileNames t) :=
    (List.mergeSort_perm downloaded strLe).trans h
  have hp2 : (archiveMembers (localFileNames t)).Perm (localFileNames t) :=
    List.mergeSort_perm _ strLe
  exact ⟨List.eq_of_perm_of_sorted (hp1.trans hp2.symm) hs1 hs2, hs1, hp1⟩

/-- Witness for C9: a 3-file task whose downloads completed in
reversed order. -/
theorem archive_member_order_witness :
    (["2023-01-01-21-13-48-C", "2023-01-01-20-13-48-B",
        "2023-01-01-19-13-48-A"].Perm
      (localFileNames (RollupTask.mk "r" "b1" "example.com/"
        ["2023-01-01-19-13-48-A", "2023-01-01-20-13-48-B",
          "2023-01-01-21-13-48-C"]))) ∧
    (archiveMembers ["2023-01-01-21-13-48-C", "2023-01-01-20-13-48-B",
        "2023-01-01-19-13-48-A"] =
      archiveMembers (localFileNames (RollupTask.mk "r" "b1" "example.com/"
        ["2023-01-01-19-13-48-A", "2023-01-01-20-13-48-B",
          "2023-01-01-21-13-48-C"])) ∧
      List.Sorted (fun a b : String => a ≤ b)
        (archiveMembers ["2023-01-01-21-13-48-C", "2023-01-01-20-13-48-B",
          "2023-01-01-19-13-48-A"]) ∧
      (archiveMembers ["2023-01-01-21-13-48-C", "2023-01-01-20-13-48-B",
          "2023-01-01-19-13-48-A"]).Perm
        (localFileNames (RollupTask.mk "r" "b1" "example.com/"
          ["2023-01-01-19-13-48-A", "2023-01-01-20-13-48-B",
            "2023-01-01-21-13-48-C"]))) :=
  ⟨by decide,
    archive_member_order
      (RollupTask.mk "r" "b1" "example.com/"
        ["2023-01-01-19-13-48-A", "2023-01-01-20-13-48-B",
          "2023-01-01-21-13-48-C"])
      ["2023-01-01-21-13-48-C", "2023-01-01-20-13-48-B",
        "2023-01-01-19-13-48-A"]
      (by decide)⟩

/-! ## C10: keys that qualify as access logs but whose date cannot be
parsed -/

/-- C10: there is a key the access-log filter accepts whose first 10
basename characters are not a valid calendar date, and on every
object whose date string fails to parse, `_date_getter` raises
(models as `none`) instead of filtering the object out. -/
theorem invalid_date_key_spec :
    (∃ key, isAccessLog key = true ∧
      parseDate (strTake (posixName key) 10) = none) ∧
    (∀ (today : Date) (o : ObjectSummary),
      parseDate (strTake (posixName o.key) 10) = none →
      dateGetter today o = none) := by
  constructor
  · refine ⟨"example.com/2021-99-99-00-00-00-E568B2907131C0C0", ?_, ?_⟩
    · decide
    · decide
  · intro today o h
    rw [dateGetter]
    simp only [h]

/-- Witness for C10's second conjunct at the concrete malformed key. -/
theorem invalid_date_key_spec_witness :
    parseDate (strTake (posixName
        "example.com/2021-99-99-00-00-00-E568B2907131C0C0") 10) = none ∧
    dateGetter ⟨2023, 1, 1⟩
      ⟨"example.com/2021-99-99-00-00-00-E568B2907131C0C0", 3⟩ = none :=
  ⟨by decide,
    invalid_date_key_spec.2 ⟨2023, 1, 1⟩
      ⟨"example.com/2021-99-99-00-00-00-E568B2907131C0C0", 3⟩ (by decide)⟩

/-! ## C3: round-robin fairness of the `make_tasks` scheduler -/

theorem roundRobin_head_pull {α : Type _} :
    ∀ (i : Nat) (active pending : List (List α)),
      i < active.length →
      (∀ j, j ≤ i → ∀ s, active[j]? = some s → s ≠ []) →
      (roundRobin active pending)[i]? = (active[i]?).bind List.head? := by
  intro i
  induction i with
  | zero =>
    intro active pending hlen hne
    rcases active with _ | ⟨s, rest⟩
    · simp at hlen
    · have hs : s ≠ [] := hne 0 (Nat.le_refl 0) s (by simp)
      rcases s with _ | ⟨t, ts⟩
      · exact absurd rfl hs
      · simp [roundRobin]
  | succ i ih =>
    intro active pending hlen hne
    rcases active with _ | ⟨s, rest⟩
    · simp at hlen
    · have hs : s ≠ [] := hne 0 (by omega) s (by simp)
      rcases s with _ | ⟨t, ts⟩
      · exact absurd rfl hs
      · have hir : i < rest.length := by
          simp only [List.length_cons] at hlen
          omega
        simp only [roundRobin, List.getElem?_cons_succ]
        have hlen' : i < (rest ++ [ts]).length := by
          simp only [List.length_append, List.length_cons, List.length_nil]
          omega
        have hne' : ∀ j, j ≤ i → ∀ s, (rest ++ [ts])[j]? = some s → s ≠ [] := by
          intro j hj s hsj
          rw [List.getElem?_append, if_pos (by omega)] at hsj
          exact hne (j + 1) (by omega) s
            (by rw [List.getElem?_cons_succ]; exact hsj)
        rw [ih (rest ++ [ts]) pending hlen' hne',
          List.getElem?_append, if_pos hir]

/-- C3: while at least `k` prefixes are simultaneously active (`k`
within the window of 20) and each of them yields at least one task,
the first `k` scheduled tasks originate from `k` distinct prefixes:
the i-th yielded task (for `i < k`) is the first task of the i-th
prefix's stream. -/
theorem make_tasks_fairness {α : Type _} (streams : List (List α)) (k : Nat)
    (hk2 : 2 ≤ k) (hk20 : k ≤ 20) (hkl : k ≤ streams.length)
    (hne : ∀ s ∈ streams.take k, s ≠ []) :
    ∀ i, i < k → ∃ t, (makeTasksSchedule streams)[i]? = some t ∧
      (streams[i]?).bind List.head? = some t := by
  intro i hik
  have hidx : ∀ j, j ≤ i → ∀ s, (streams.take 20)[j]? = some s → s ≠ [] := by
    intro j hj s hsj
    rw [List.getElem?_take, if_pos (by omega)] at hsj
    apply hne
    rw [List.mem_iff_getElem?]
    exact ⟨j, by rw [List.getElem?_take, if_pos (by omega)]; exact hsj⟩
  have hlen : i < (streams.take 20).length := by
    rw [List.length_take]
    omega
  have h := roundRobin_head_pull i (streams.take 20) (streams.drop 20) hlen hidx
  rw [makeTasksSchedule, h, List.getElem?_take, if_pos (by omega)]
  have higet : i < streams.length := by omega
  have hval : streams[i]? = some streams[i] := List.getElem?_eq_getElem higet
  have hmem : streams[i] ∈ streams.take k := by
    rw [List.mem_iff_getElem?]
    exact ⟨i, by rw [List.getElem?_take, if_pos hik]; exact hval⟩
  have hnei := hne _ hmem
  rcases hget : streams[i] with _ | ⟨t, ts⟩
  · exact absurd hget hnei
  · exact ⟨t, by rw [hval, hget]; rfl, by rw [hval, hget]; rfl⟩

/-- Witness for C3 with three singleton streams and `k = 2`. -/
theorem make_tasks_fairness_witness :
    2 ≤ 2 ∧ (2 : Nat) ≤ 20 ∧ 2 ≤ ([[1], [2], [3]] : List (List Nat)).length ∧
    (∀ s ∈ ([[1], [2], [3]] : List (List Nat)).take 2, s ≠ []) ∧
    (∀ i, i < 2 → ∃ t, (makeTasksSchedule [[1], [2], [3]])[i]? = some t ∧
      (([[1], [2], [3]] : List (List Nat))[i]?).bind List.head? = some t) :=
  ⟨by decide, by decide, by decide, by decide,
    make_tasks_fairness [[1], [2], [3]] 2 (by decide) (by decide)
      (by decide) (by decide)⟩

/-! ## C4: the date filter of `_make_tasks` -/

theorem takeWhile_append_all {α : Type _} {p : α → Bool} {m r : List α}
    (h : ∀ x ∈ m, p x = true) :
    (m ++ r).takeWhile p = m ++ r.takeWhile p := by
  rw [List.takeWhile_append, List.takeWhile_eq_self_iff.mpr h, if_pos rfl]

theorem groupRunsGo_key {α κ : Type _} [DecidableEq κ] (keyf : α → κ) :
    ∀ (l : List α) (k : κ) (acc : List α),
      (∀ x ∈ acc, keyf x = k) →
      ∀ g ∈ groupRunsGo keyf k acc l, ∀ x ∈ g.2, keyf x = g.1 := by
  intro l
  induction l with
  | nil =>
    intro k acc hacc g hg x hx
    simp only [groupRunsGo, List.mem_singleton] at hg
    subst hg
    exact hacc x (by simpa using hx)
  | cons y l ih =>
    intro k acc hacc g hg x hx
    simp only [groupRunsGo] at hg
    by_cases hk : keyf y = k
    · rw [if_pos hk] at hg
      refine ih k (y :: acc) ?_ g hg x hx
      intro z hz
      rcases List.mem_cons.mp hz with rfl | hz
      · exact hk
      · exact hacc z hz
    · rw [if_neg hk] at hg
      rcases List.mem_cons.mp hg with rfl | hg
      · exact hacc x (by simpa using hx)
      · refine ih (keyf y) [y] ?_ g hg x hx
        intro z hz
        rcases List.mem_cons.mp hz with rfl | hz
        · rfl
        · simp at hz

theorem groupRuns_key {α κ : Type _} [DecidableEq κ] (keyf : α → κ)
    (l : List α) :
    ∀ g ∈ groupRuns keyf l, ∀ x ∈ g.2, keyf x = g.1 := by
  cases l with
  | nil => intro g hg; simp [groupRuns] at hg
  | cons x xs =>
    simp only [groupRuns]
    exact groupRunsGo_key keyf xs (keyf x) [x] (by simp)

theorem groupRunsGo_takeWhile_flatten {α κ : Type _} [DecidableEq κ]
    (keyf : α → κ) (p : κ → Bool) :
    ∀ (l : List α) (k : κ) (acc : List α),
      acc ≠ [] → (∀ x ∈ acc, keyf x = k) →
      (((groupRunsGo keyf k acc l).takeWhile (fun g => p g.1)).map
          Prod.snd).flatten =
        (acc.reverse ++ l).takeWhile (fun x => p (keyf x)) := by
  intro l
  induction l with
  | nil =>
    intro k acc hne hacc
    simp only [groupRunsGo, List.append_nil]
    by_cases hp : p k = true
    · rw [List.takeWhile_cons]
      simp only [hp, if_true]
      simp only [List.takeWhile_nil, List.map_cons, List.map_nil,
        List.flatten_cons, List.flatten_nil, List.append_nil]
      symm
      rw [List.takeWhile_eq_self_iff]
      intro x hx
      rw [hacc x (List.mem_reverse.mp hx)]
      exact hp
    · rw [List.takeWhile_cons]
      simp only [hp, if_false, Bool.false_eq_true]
      rcases hrev : acc.reverse with _ | ⟨z, zs⟩
      · exact absurd (by simpa using congrArg List.reverse hrev) hne
      · have hz : keyf z = k := hacc z (by rw [← List.mem_reverse, hrev]; simp)
        simp [List.takeWhile_cons, hz, hp]
  | cons y l ih =>
    intro k acc hne hacc
    simp only [groupRunsGo]
    by_cases hk : keyf y = k
    · rw [if_pos hk,
        ih k (y :: acc) (by simp) (by
          intro z hz
          rcases List.mem_cons.mp hz with rfl | hz
          · exact hk
          · exact hacc z hz),
        List.reverse_cons, List.append_assoc]
      rfl
    · rw [if_neg hk]
      by_cases hp : p k = true
      · rw [List.takeWhile_cons]
        simp only [hp, if_true]
        simp only [List.map_cons, List.flatten_cons]
        rw [ih (keyf y) [y] (by simp) (by
          intro z hz
          rcases List.mem_cons.mp hz with rfl | hz
          · rfl
          · simp at hz)]
        have h1 : ([y].reverse ++ l) = y :: l := by simp
        rw [h1]
        have hall : ∀ x ∈ acc.reverse, (fun x => p (keyf x)) x = true := by
          intro x hx
          show p (keyf x) = true
          rw [hacc x (List.mem_reverse.mp hx)]
          exact hp
        rw [@takeWhile_append_all _ (fun x => p (keyf x)) acc.reverse
          (y :: l) hall]
      · rw [List.takeWhile_cons]
        simp only [hp, if_false, Bool.false_eq_true]
        rcases hrev : acc.reverse with _ | ⟨z, zs⟩
        · exact absurd (by simpa using congrArg List.reverse hrev) hne
        · have hz : keyf z = k := hacc z (by rw [← List.mem_reverse, hrev]; simp)
          simp [List.cons_append, List.takeWhile_cons, hz, hp]

theorem groupRuns_takeWhile_flatten {α κ : Type _} [DecidableEq κ]
    (keyf : α → κ) (p : κ → Bool) (l : List α) :
    (((groupRuns keyf l).takeWhile (fun g => p g.1)).map Prod.snd).flatten =
      l.takeWhile (fun x => p (keyf x)) := by
  cases l with
  | nil => simp [groupRuns]
  | cons x xs =>
    simp only [groupRuns]
    have h := groupRunsGo_takeWhile_flatten keyf p xs (keyf x) [x]
      (by simp) (by simp)
    simpa using h

theorem groupGo_mem (max_size max_items : Nat) :
    ∀ (rest group : List ObjectSummary) (gs : Nat),
      ∀ b ∈ groupGo max_size max_items group gs rest,
        ∀ x ∈ b, x ∈ group ++ rest := by
  intro rest
  induction rest with
  | nil =>
    intro group gs b hb x hx
    simp only [groupGo, List.mem_singleton] at hb
    subst hb
    simpa using hx
  | cons current rest ih =>
    intro group gs b hb x hx
    simp only [groupGo] at hb
    by_cases hcond : gs + current.size ≤ max_size
        ∧ group.length + 1 ≤ max_items
    · rw [if_pos hcond] at hb
      have h := ih (group ++ [current]) (gs + current.size) b hb x hx
      simpa [List.append_assoc] using h
    · rw [if_neg hcond] at hb
      rcases List.mem_cons.mp hb with rfl | hb
      · exact List.mem_append_left _ hx
      · exact List.mem_append_right _
          (by simpa using ih [current] current.size b hb x hx)

theorem binsOfGroup_mem (max_size max_items : Nat) (g : List ObjectSummary) :
    ∀ b ∈ binsOfGroup max_size max_items g, ∀ x ∈ b, x ∈ g := by
  cases g with
  | nil => intro b hb; simp [binsOfGroup] at hb
  | cons o os =>
    intro b hb x hx
    simp only [binsOfGroup, groupObjects] at hb
    simpa using groupGo_mem max_size max_items os [o] o.size b hb x hx

theorem binsOfGroup_flatten (max_size max_items : Nat) (hi : 1 ≤ max_items)
    (g : List ObjectSummary) :
    (binsOfGroup max_size max_items g).flatten = g := by
  cases g with
  | nil => simp [binsOfGroup]
  | cons o os =>
    have h := (groupGo_spec max_size max_items hi os [o] o.size (by simp)
      (by simp) (Or.inr (by simp)) (by simpa using hi)).2
    simpa [binsOfGroup, groupObjects] using h

theorem dateGetter_eq (today : Date) (o : ObjectSummary) :
    dateGetter today o =
      match parseDate (strTake (posixName o.key) 10) with
      | none => none
      | some d =>
        if Date.ble today d then some ""
        else some (strTake (posixName o.key) 10) := rfl

theorem goodKey_dateGetter_mp {today : Date} {o : ObjectSummary}
    (h : goodKey (dateGetter today o) = true) :
    ∃ d, parseDate (strTake (posixName o.key) 10) = some d ∧
      Date.ble today d = false := by
  rcases hp : parseDate (strTake (posixName o.key) 10) with _ | d
  · rw [dateGetter_eq, hp] at h
    simp [goodKey] at h
  · by_cases hb : Date.ble today d = true
    · rw [dateGetter_eq, hp] at h
      simp only [hb, if_true] at h
      simp [goodKey] at h
    · exact ⟨d, rfl, by simpa using hb⟩

/-- C4: no task yielded by `_make_tasks` contains an object whose
derived date (first 10 characters of its basename) parses to the
current UTC date or later — every emitted basename carries a date
strictly before today — and enumeration stops at the first
`groupby` group whose key is the empty marker: the emitted basenames
are exactly the qualifying listing's longest prefix of objects whose
key is a good (parsed, strictly-past) date. The hypothesis restricts
to listings whose qualifying objects all carry parseable dates, where
the embedding and the exception-raising source agree. -/
theorem date_filter_spec (today : Date) (s3_role bucket prefixKey : String)
    (objects : List ObjectSummary)
    (_hp : ∀ o ∈ objects.filter (fun o => isAccessLog o.key),
      (parseDate (strTake (posixName o.key) 10)).isSome = true) :
    (∀ task ∈ makeTasksForPrefix today s3_role bucket prefixKey objects,
      ∀ bn ∈ task.basenames, ∃ d, parseDate (strTake bn 10) = some d ∧
        Date.ble today d = false) ∧
    ((makeTasksForPrefix today s3_role bucket prefixKey objects).map
        RollupTask.basenames).flatten =
      ((objects.filter (fun o => isAccessLog o.key)).takeWhile
        (fun o => goodKey (dateGetter today o))).map
        (fun o => posixName o.key) := by
  constructor
  · intro task htask bn hbn
    simp only [makeTasksForPrefix] at htask
    obtain ⟨g, hg, htask⟩ := List.mem_flatMap.mp htask
    obtain ⟨bin, hbin, rfl⟩ := List.mem_map.mp htask
    simp only at hbn
    obtain ⟨o, ho, rfl⟩ := List.mem_map.mp hbn
    have hgood : goodKey g.1 = true := by
      simpa using List.mem_takeWhile_imp hg
    have hgr : g ∈ groupRuns (dateGetter today)
        (objects.filter (fun o => isAccessLog o.key)) :=
      List.Sublist.mem hg (List.takeWhile_sublist _)
    have hobin : o ∈ g.2 := binsOfGroup_mem _ _ _ bin hbin o ho
    have hkey : dateGetter today o = g.1 :=
      groupRuns_key (dateGetter today) _ g hgr o hobin
    rw [← hkey] at hgood
    exact goodKey_dateGetter_mp hgood
  · simp only [makeTasksForPrefix]
    rw [List.map_flatMap,
      flatMap_flatten_congr _ _
        (fun g => g.2.map (fun o => posixName o.key))
        (by
          intro g hg
          rw [List.map_map]
          show ((binsOfGroup (1024 * 1024 * 1024 * 5) 6000 g.2).map
            (List.map (fun o => posixName o.key))).flatten = _
          rw [← List.map_flatten,
            binsOfGroup_flatten (1024 * 1024 * 1024 * 5) 6000 (by omega)]),
      show ((groupRuns (dateGetter today)
            (objects.filter (fun o => isAccessLog o.key))).takeWhile
            (fun g => goodKey g.1)).map
            (fun g => g.2.map (fun o => posixName o.key)) =
          (((groupRuns (dateGetter today)
            (objects.filter (fun o => isAccessLog o.key))).takeWhile
            (fun g => goodKey g.1)).map Prod.snd).map
            (List.map (fun o => posixName o.key)) by
        rw [List.map_map]; rfl,
      ← List.map_flatten, groupRuns_takeWhile_flatten]

/-- Witness for C4 at a concrete two-object listing (one qualifying
log object dated in the past, one non-qualifying file). -/
theorem date_filter_spec_witness :
    (∀ o ∈ ([⟨"example.com/2023-01-01-19-13-48-A42B", 3⟩,
        ⟨"example.com/hello.txt", 2⟩] : List ObjectSummary).filter
        (fun o => isAccessLog o.key),
      (parseDate (strTake (posixName o.key) 10)).isSome = true) ∧
    ((∀ task ∈ makeTasksForPrefix ⟨2023, 6, 1⟩ "role" "bucket1"
        "example.com/"
        [⟨"example.com/2023-01-01-19-13-48-A42B", 3⟩,
          ⟨"example.com/hello.txt", 2⟩],
      ∀ bn ∈ task.basenames, ∃ d, parseDate (strTake bn 10) = some d ∧
        Date.ble ⟨2023, 6, 1⟩ d = false) ∧
    ((makeTasksForPrefix ⟨2023, 6, 1⟩ "role" "bucket1" "example.com/"
        [⟨"example.com/2023-01-01-19-13-48-A42B", 3⟩,
          ⟨"example.com/hello.txt", 2⟩]).map
        RollupTask.basenames).flatten =
      ((([⟨"example.com/2023-01-01-19-13-48-A42B", 3⟩,
          ⟨"example.com/hello.txt", 2⟩] : List ObjectSummary).filter
          (fun o => isAccessLog o.key)).takeWhile
        (fun o => goodKey (dateGetter ⟨2023, 6, 1⟩ o))).map
        (fun o => posixName o.key)) :=
  ⟨by decide,
    date_filter_spec ⟨2023, 6, 1⟩ "role" "bucket1" "example.com/"
      [⟨"example.com/2023-01-01-19-13-48-A42B", 3⟩,
        ⟨"example.com/hello.txt", 2⟩] (by decide)⟩

/-! ## C1: `find_folders` and the depth bound -/

theorem wfAll_mem : ∀ (cs : List S3Dir), wfAll cs = true →
    ∀ c ∈ cs, S3Dir.wf c = true := by
  intro cs
  induction cs with
  | nil => intro _ c hc; simp at hc
  | cons a as ih =>
    intro h c hc
    rw [wfAll, Bool.and_eq_true] at h
    rcases List.mem_cons.mp hc with rfl | hc
    · exact h.1
    · exact ih h.2 c hc

theorem wf_parts : ∀ (d : S3Dir), S3Dir.wf d = true →
    depthsOk (S3Dir.depth d) (S3Dir.children d) = true ∧
    uniformDepth (S3Dir.children d) = true ∧
    wfAll (S3Dir.children d) = true := by
  intro d h
  rcases d with ⟨k, cs⟩
  rw [S3Dir.wf, Bool.and_eq_true, Bool.and_eq_true] at h
  exact ⟨h.1.1, h.1.2, h.2⟩

theorem depthsOk_le {pd : Nat} {cs : List S3Dir} (h : depthsOk pd cs = true)
    {c : S3Dir} (hc : c ∈ cs) : pd ≤ S3Dir.depth c := by
  simpa using List.all_eq_true.mp h c hc

theorem uniformDepth_eq : ∀ (cs : List S3Dir), uniformDepth cs = true →
    ∀ a ∈ cs, ∀ b ∈ cs, S3Dir.depth a = S3Dir.depth b := by
  intro cs h a ha b hb
  cases cs with
  | nil => simp at ha
  | cons c rest =>
    rw [uniformDepth] at h
    have hall := List.all_eq_true.mp h
    have hda : S3Dir.depth a = S3Dir.depth c := by
      rcases List.mem_cons.mp ha with rfl | ha
      · rfl
      · simpa using hall a ha
    have hdb : S3Dir.depth b = S3Dir.depth c := by
      rcases List.mem_cons.mp hb with rfl | hb
      · rfl
      · simpa using hall b hb
    rw [hda, hdb]

mutual

theorem findFolders_sound : ∀ (d : S3Dir) (m : Nat) (f : S3Dir),
    f ∈ S3Dir.find_folders d m → Descendant f d ∧ S3Dir.depth f < m
  | .node k cs, m, f, h => by
    rw [S3Dir.find_folders] at h
    obtain ⟨⟨c, hc, hfc⟩, hlt⟩ := findFoldersGo_sound cs m f h
    rcases hfc with rfl | hfc
    · exact ⟨Descendant.child hc, hlt⟩
    · exact ⟨Descendant.step hc hfc, hlt⟩

theorem findFoldersGo_sound : ∀ (cs : List S3Dir) (m : Nat) (f : S3Dir),
    f ∈ findFoldersGo cs m →
    (∃ c ∈ cs, f = c ∨ Descendant f c) ∧ S3Dir.depth f < m
  | [], m, f, h => by simp [findFoldersGo] at h
  | c :: rest, m, f, h => by
    rw [findFoldersGo] at h
    by_cases hdep : S3Dir.depth c ≥ m
    · rw [if_pos hdep] at h
      simp at h
    · rw [if_neg hdep] at h
      rcases List.mem_cons.mp h with rfl | h
      · exact ⟨⟨f, List.mem_cons_self _ _, Or.inl rfl⟩, by omega⟩
      · rcases List.mem_append.mp h with h | h
        · obtain ⟨hdesc, hlt⟩ := findFolders_sound c m f h
          exact ⟨⟨c, List.mem_cons_self _ _, Or.inr hdesc⟩, hlt⟩
        · obtain ⟨⟨c', hc', hfc'⟩, hlt⟩ := findFoldersGo_sound rest m f h
          exact ⟨⟨c', List.mem_cons_of_mem _ hc', hfc'⟩, hlt⟩

end

theorem descendant_depth_le {f d : S3Dir} (hdesc : Descendant f d) :
    S3Dir.wf d = true → S3Dir.depth d ≤ S3Dir.depth f := by
  induction hdesc with
  | @child d' hmem =>
    intro hwf
    exact depthsOk_le (wf_parts d' hwf).1 hmem
  | @step c d' hmem hdesc ih =>
    intro hwf
    obtain ⟨hdo, _, hall⟩ := wf_parts d' hwf
    exact Nat.le_trans (depthsOk_le hdo hmem)
      (ih (wfAll_mem _ hall c hmem))

theorem mem_findFoldersGo_self : ∀ (cs : List S3Dir) (m : Nat) (c : S3Dir),
    c ∈ cs → (∀ s ∈ cs, S3Dir.depth s < m) → c ∈ findFoldersGo cs m := by
  intro cs
  induction cs with
  | nil => intro m c hc _; simp at hc
  | cons a rest ih =>
    intro m c hc hall
    rw [findFoldersGo, if_neg (by
      have := hall a (List.mem_cons_self _ _)
      omega)]
    rcases List.mem_cons.mp hc with rfl | hc
    · exact List.mem_cons_self _ _
    · exact List.mem_cons_of_mem _ (List.mem_append_right _
        (ih m c hc (fun s hs => hall s (List.mem_cons_of_mem _ hs))))

theorem mem_findFoldersGo_of_desc : ∀ (cs : List S3Dir) (m : Nat)
    (c f : S3Dir), c ∈ cs → (∀ s ∈ cs, S3Dir.depth s < m) →
    f ∈ S3Dir.find_folders c m → f ∈ findFoldersGo cs m := by
  intro cs
  induction cs with
  | nil => intro m c f hc _ _; simp at hc
  | cons a rest ih =>
    intro m c f hc hall hf
    rw [findFoldersGo, if_neg (by
      have := hall a (List.mem_cons_self _ _)
      omega)]
    rcases List.mem_cons.mp hc with rfl | hc
    · exact List.mem_cons_of_mem _ (List.mem_append_left _ hf)
    · exact List.mem_cons_of_mem _ (List.mem_append_right _
        (ih m c f hc (fun s hs => hall s (List.mem_cons_of_mem _ hs)) hf))

theorem findFolders_complete {f d : S3Dir} (hdesc : Descendant f d) :
    ∀ m, S3Dir.wf d = true → S3Dir.depth f < m →
    f ∈ S3Dir.find_folders d m := by
  induction hdesc with
  | @child d' hmem =>
    intro m hwf hlt
    obtain ⟨_, hun, _⟩ := wf_parts d' hwf
    have hallin : ∀ s ∈ S3Dir.children d', S3Dir.depth s < m := by
      intro s hs
      have h1 := uniformDepth_eq _ hun s hs f hmem
      omega
    rcases d' with ⟨k, cs⟩
    rw [S3Dir.find_folders]
    exact mem_findFoldersGo_self cs m f hmem hallin
  | @step c d' hmem hdesc ih =>
    intro m hwf hlt
    obtain ⟨_, hun, hall⟩ := wf_parts d' hwf
    have hwfc : S3Dir.wf c = true := wfAll_mem _ hall c hmem
    have hallin : ∀ s ∈ S3Dir.children d', S3Dir.depth s < m := by
      intro s hs
      have h1 := uniformDepth_eq _ hun s hs c hmem
      have h2 := descendant_depth_le hdesc hwfc
      omega
    rcases d' with ⟨k, cs⟩
    rw [S3Dir.find_folders]
    exact mem_findFoldersGo_of_desc cs m c f hmem hallin (ih m hwfc hlt)

/-- C1 counterexample: for a root `a/` with one child `a/b/` of depth
exactly `max_depth = 1`, `find_folders(1)` yields nothing — the child
at depth `max_depth` is not yielded (the loop `break`s before the
`yield`), contradicting the claim that such a folder is still yielded
with only its children left unexplored. -/
theorem find_folders_counterexample :
    S3Dir.depth (S3Dir.node "a/b/" []) = 1 ∧
    (S3Dir.node "a/b/" []) ∈
      S3Dir.children (S3Dir.node "a/" [S3Dir.node "a/b/" []]) ∧
    S3Dir.find_folders (S3Dir.node "a/" [S3Dir.node "a/b/" []]) 1 = [] := by
  refine ⟨by decide, by simp [S3Dir.children], ?_⟩
  rw [S3Dir.find_folders, findFoldersGo, if_pos (by decide)]

/-- C1 amended: on a well-formed directory tree (every listing's
child folders share one depth, at least the parent's), `find_folders
(max_depth)` yields exactly the descendant folders whose depth is
strictly less than `max_depth`; a folder whose depth reaches
`max_depth` is neither yielded nor descended into. -/
theorem find_folders_spec (d : S3Dir) (m : Nat) (f : S3Dir)
    (hwf : S3Dir.wf d = true) :
    f ∈ S3Dir.find_folders d m ↔ Descendant f d ∧ S3Dir.depth f < m := by
  constructor
  · exact findFolders_sound d m f
  · rintro ⟨hdesc, hlt⟩
    exact findFolders_complete hdesc m hwf hlt

/-- Witness for C1's amended claim: a three-level tree with
`max_depth = 2`; the depth-1 folder `log/a/` is a descendant with
depth `< 2` and is indeed yielded. -/
theorem find_folders_spec_witness :
    S3Dir.wf (S3Dir.node "log/"
      [S3Dir.node "log/a/" [S3Dir.node "log/a/b/" []]]) = true ∧
    ((S3Dir.node "log/a/" [S3Dir.node "log/a/b/" []]) ∈
        S3Dir.find_folders (S3Dir.node "log/"
          [S3Dir.node "log/a/" [S3Dir.node "log/a/b/" []]]) 2 ↔
      Descendant (S3Dir.node "log/a/" [S3Dir.node "log/a/b/" []])
          (S3Dir.node "log/"
            [S3Dir.node "log/a/" [S3Dir.node "log/a/b/" []]]) ∧
        S3Dir.depth (S3Dir.node "log/a/" [S3Dir.node "log/a/b/" []]) < 2) :=
  ⟨by decide,
    find_folders_spec _ 2 _ (by decide)⟩

end Rollup
